import Mathlib

/-!
# Verification of the ShallowSpeed distributed-MLP drivers

Shallow embedding of `src/distributed_MLP/train_MLP_DDP.py` and
`src/distributed_MLP/NN_From_Scratch.py`, together with proofs of the
spec claims about process topology, dataset sharding, batching, startup
checks, replica synchronization, per-batch operation order, pipelined
accuracy computation and reporting.
-/

namespace ShallowSpeed

/-! ## Process topology (train_MLP_DDP.py, lines 52-57)

`dp_comm = COMM_WORLD.Split(color=rank % PP_tile_factor)` and
`pp_comm = COMM_WORLD.Split(color=rank // PP_tile_factor)`.
`W` is the data-parallel width (`DP_tile_factor`), `D` the pipeline
depth (`PP_tile_factor`), the world size is `W * D`. -/

/-- The color assigned to flat rank `r` by the data-parallel split:
`rank % PP_tile_factor`. -/
def dpColor (D r : ℕ) : ℕ := r % D

/-- The color assigned to flat rank `r` by the pipeline split:
`rank // PP_tile_factor`. -/
def ppColor (D r : ℕ) : ℕ := r / D

/-- The stage-communicator group of color `c`: all world ranks whose
data-parallel color equals `c`. -/
def stageGroup (W D c : ℕ) : Finset ℕ :=
  (Finset.range (W * D)).filter (fun x => dpColor D x = c)

/-- The pipeline-communicator group of quotient `q`: all world ranks whose
pipeline color equals `q`. -/
def pipeGroup (W D q : ℕ) : Finset ℕ :=
  (Finset.range (W * D)).filter (fun x => ppColor D x = q)

/-- A rank's position inside a communicator group: MPI `Split` with the
default key orders members by their original rank, so the new rank is the
number of group members with a smaller world rank. -/
def groupRank (g : Finset ℕ) (r : ℕ) : ℕ := (g.filter (fun x => x < r)).card

/-- `dp_comm.Get_rank()` for world rank `r`. -/
def dpRankOf (W D r : ℕ) : ℕ := groupRank (stageGroup W D (dpColor D r)) r

/-- `pp_comm.rank` (the stage id) for world rank `r`. -/
def stageIdOf (W D r : ℕ) : ℕ := groupRank (pipeGroup W D (ppColor D r)) r

/-- The `(dp_rank, stage_id)` coordinate pair of world rank `r`. -/
def coords (W D r : ℕ) : ℕ × ℕ := (dpRankOf W D r, stageIdOf W D r)

/-! ## Dataset sharding (NN_From_Scratch.py, lines 78-79)

`x_train = x_train[rank : len(x_train) : size]`: rank `r` of `S`
processes keeps the rows `r, r+S, r+2S, ...` of the `N`-row dataset.
For `r < S` these are exactly the indices below `N` congruent to `r`
modulo `S`, listed in increasing order. -/

/-- The row indices of rank `r`'s interleaved shard of an `N`-row dataset
split `S` ways: the Python slice `[r : N : S]`. -/
def shard (N S r : ℕ) : List ℕ :=
  (List.range N).filter (fun i => i % S = r)

/-! ## Batching (NN_From_Scratch.py lines 100-102, train_MLP_DDP.py line 92) -/

/-- Python `range(0, L, B)` for `B > 0`: the multiples of `B` below `L`,
the loop indices `j` of the NN_From_Scratch per-epoch training loop. -/
def pyRangeStride (L B : ℕ) : List ℕ :=
  (List.range L).filter (fun j => j % B = 0)

/-- One epoch of the NN_From_Scratch training loop: for each loop index `j`
the slice `x_train[j : min(len(x_train), j + B)]`, recorded as the pair
(start row, number of rows). Every recorded batch is fed to a full
forward/backward/step iteration. -/
def nnEpochBatches (L B : ℕ) : List (ℕ × ℕ) :=
  (pyRangeStride L B).map (fun j => (j, min L (j + B) - j))

/-- Modelled from the spec: `Dataset.get_num_batches` lives in the
`minMLP.pipe` module, which is not under `src/`; the spec says it returns
the shard's length divided by the batch size with the floor taken and the
trailing remainder dropped. -/
def get_num_batches (L B : ℕ) : ℕ := L / B

/-- Modelled from the spec: the per-epoch batch loop of train_MLP_DDP.py
(line 92) runs `batch_id` over `range(dataset.get_num_batches())`, and
`load_micro_batch_input`/`..._target` (minMLP.pipe, not under `src/`)
return contiguous slices of exactly the configured batch size. Each batch
is the pair (start row, number of rows). -/
def ddpEpochBatches (L B : ℕ) : List (ℕ × ℕ) :=
  (List.range (get_num_batches L B)).map (fun b => (b * B, B))

/-! ## Startup sequencing (train_MLP_DDP.py 46-57, NN_From_Scratch.py 54-81) -/

/-- The startup-relevant events of the two driver programs, in program
order: the configuration assertion checks and the MPI operations. -/
inductive StartupEvent where
  | checkTopoProduct
  | checkBatchDivisible
  | checkCommSizes
  | commSplit
  | commBarrier
  | commCollective
  deriving DecidableEq

/-- Whether an event is inter-process communication (a barrier, split,
send/receive or collective). -/
def StartupEvent.isComm : StartupEvent → Bool
  | .commSplit => true
  | .commBarrier => true
  | .commCollective => true
  | _ => false

/-- Program-order event trace of the `__main__` block of
train_MLP_DDP.py: the tile-factor product assert (line 49), the
batch-divisibility assert (line 50), the two communicator `Split`s
(54-55), the communicator-size sanity assert (57), then the training
loop's collectives. -/
def ddpStartupTrace : List StartupEvent :=
  [.checkTopoProduct, .checkBatchDivisible, .commSplit, .commSplit,
   .checkCommSizes, .commCollective]

/-- Program-order event trace of the `__main__` block of
NN_From_Scratch.py, parameterized by whether the dataset directory is
absent at launch: when absent, rank 0 downloads it and every rank runs
`comm.Barrier()` (line 66) before the batch-divisibility assert
(line 80); training then communicates through the all-reduce inside
`Distributed_MLP.backward`. This driver has no topology-product assert. -/
def nnStartupTrace (datasetMissing : Bool) : List StartupEvent :=
  (if datasetMissing then [StartupEvent.commBarrier] else [])
    ++ [.checkBatchDivisible, .commCollective]

/-- The events a process performs before its first inter-process
communication. -/
def beforeFirstComm (t : List StartupEvent) : List StartupEvent :=
  t.takeWhile (fun e => !e.isComm)

/-- The property claimed for each driver: both configuration checks run
(and would fail there) before any inter-process communication. -/
def checksPrecedeComm (t : List StartupEvent) : Bool :=
  (beforeFirstComm t).contains .checkTopoProduct &&
  (beforeFirstComm t).contains .checkBatchDivisible

/-! ## Data-parallel gradient synchronization (spec §4.5-§4.6)

The minMLP package (models, optimizer, pipe, utils) is not under `src/`;
the replica-synchronization discipline is modelled from the spec. -/

/-- Modelled from the spec: one synchronized training step of the `R`
data-parallel replicas. Replica `i` computes a local gradient from its
own parameters and its own shard (`grad i`), the Worker all-reduces the
local gradients (sum, then divide by the data-parallel width `R`), and
`SGD.step` applies `param -= lr * grad` with the reduced gradient. -/
def syncStep (R : ℕ) (lr : ℚ) (grad : Fin R → ℚ → ℚ) (p : Fin R → ℚ) :
    Fin R → ℚ :=
  fun i => p i - lr * ((∑ j, grad j (p j)) / (R : ℚ))

/-- Modelled from the spec: the training run — at iteration `t` every
replica uses its per-batch local-gradient function `grads t` and all
replicas apply the synchronized update. -/
def trainRun (R : ℕ) (lr : ℚ) (grads : ℕ → Fin R → ℚ → ℚ) :
    ℕ → (Fin R → ℚ) → (Fin R → ℚ)
  | 0, p => p
  | t + 1, p => trainRun R lr grads t (syncStep R lr (grads t) p)

/-- Modelled from the spec: `assert_sync(comm, get_model_hash(model))`
(minMLP.utils, not under `src/`) succeeds on every rank iff the hashed
value is identical across the communicator's `R` ranks. -/
def assertSyncOK {R : ℕ} {α : Type} (v : Fin R → α) : Prop :=
  ∀ i j, v i = v j

/-! ## Per-batch training-step order (NN_From_Scratch.py lines 104-110) -/

/-- The operations of one NN_From_Scratch training-batch iteration. -/
inductive TrainOp where
  | forward
  | loss
  | lossGrad
  | zeroGrad
  | backward
  | step
  deriving DecidableEq

/-- The body of one batch iteration of the NN_From_Scratch training loop,
in program order (lines 104-110): `model.forward(x)`,
`mse_loss(output, y)`, `mse_loss_grad(output, y)`, `model.zero_grad()`,
`model.backward(dout)` (which, for `Distributed_MLP`, carries out the
cross-replica gradient all-reduce), `optimizer.step()`. -/
def batchBody : List TrainOp :=
  [.forward, .loss, .lossGrad, .zeroGrad, .backward, .step]

/-- One epoch of the training loop: the batch bodies of all
`numBatches` iterations, each operation tagged with its batch index. -/
def epochTrace (numBatches : ℕ) : List (ℕ × TrainOp) :=
  (List.range numBatches).flatMap (fun b => batchBody.map (fun op => (b, op)))

/-! ## Pipelined accuracy computation (train_MLP_DDP.py lines 12-38) -/

/-- `np.argmax` over one row: the index of the first occurrence of the
maximum entry (0 for an empty row). -/
def argmaxAux : List ℚ → ℕ → ℕ → ℚ → ℕ
  | [], _, bi, _ => bi
  | x :: xs, i, bi, bv =>
      if bv < x then argmaxAux xs (i + 1) i x else argmaxAux xs (i + 1) bi bv

/-- `np.argmax(row)`. -/
def argmax : List ℚ → ℕ
  | [] => 0
  | x :: xs => argmaxAux xs 1 0 x

/-- The worker state visible to train_MLP_DDP's `compute_accuracy`: the
fixed stage coordinates and the per-slot output buffers (slot 1 holds
the final-layer output, written only by the terminal stage). -/
structure PipelineWorker where
  stageId : ℕ
  pipelineDepth : ℕ
  buffers : ℕ → List (List ℚ)

/-- The batch loop of `compute_accuracy` (train_MLP_DDP.py lines 22-34).
For each batch id the worker executes the one-micro-batch inference
schedule (`exec`, which updates the per-slot buffers; `Worker.execute`
lives in minMLP.pipe outside `src/`, so it is a parameter), and only when
`stage_id == pipeline_depth - 1` does the function read the final-layer
output from `buffers[1]`, take row-wise argmax of output and of the
batch targets, and accumulate (correct, total). The state also records
the list of buffer slots read so far. -/
def accuracyLoop (exec : (ℕ → List (List ℚ)) → ℕ → (ℕ → List (List ℚ)))
    (targets : ℕ → List (List ℚ)) (sid depth : ℕ) :
    List ℕ → ((ℕ → List (List ℚ)) × ℚ × ℕ × List ℕ)
      → ((ℕ → List (List ℚ)) × ℚ × ℕ × List ℕ)
  | [], st => st
  | batchId :: rest, (bufs, correct, total, reads) =>
      let bufs' := exec bufs batchId
      if sid = depth - 1 then
        let pred := (bufs' 1).map argmax
        let tgt := (targets batchId).map argmax
        let c := ((pred.zip tgt).filter (fun pt => pt.1 = pt.2)).length
        accuracyLoop exec targets sid depth rest
          (bufs', correct + (c : ℚ), total + pred.length, reads ++ [1])
      else
        accuracyLoop exec targets sid depth rest (bufs', correct, total, reads)

/-- train_MLP_DDP's `compute_accuracy` (lines 12-38): run the batch loop
over all validation batches, and return `correct / total` on the
terminal stage and `None` (the implicit Python return value) on every
other stage, together with the accumulated list of buffer slots read. -/
def computeAccuracyDDP (exec : (ℕ → List (List ℚ)) → ℕ → (ℕ → List (List ℚ)))
    (targets : ℕ → List (List ℚ)) (w : PipelineWorker) (numBatches : ℕ) :
    Option ℚ × List ℕ :=
  let st := accuracyLoop exec targets w.stageId w.pipelineDepth
    (List.range numBatches) (w.buffers, 0, 0, [])
  (if w.stageId = w.pipelineDepth - 1
    then some (st.2.1 / (st.2.2.1 : ℚ)) else none,
   st.2.2.2)

/-! ## Model-state frame of compute_accuracy (NN_From_Scratch.py 16-30) -/

/-- The model state visible to `compute_accuracy`: the training-mode
flag, the parameter tensors and the gradient accumulators. The minMLP
model itself is not under `src/`; modelled from the spec:
`model.eval()` / `model.train()` toggle only the training flag, and the
forward pass calls the stateless numeric library. -/
structure ModelState where
  training : Bool
  params : List (List ℚ)
  grads : List (List ℚ)

/-- Modelled from the spec: `model.eval()` clears the training flag. -/
def ModelState.evalMode (m : ModelState) : ModelState :=
  { m with training := false }

/-- Modelled from the spec: `model.train()` sets the training flag. -/
def ModelState.trainMode (m : ModelState) : ModelState :=
  { m with training := true }

/-- NN_From_Scratch's `compute_accuracy` (lines 16-30): switch the model
to eval mode, run the forward pass (`fwd`, the spec-modelled pure
numeric pipeline, which may read the state but returns only the output),
switch back to train mode, then compare row-wise argmax of output and
labels and return the mean agreement together with the final model
state. -/
def computeAccuracyNN (fwd : ModelState → List (List ℚ) → List (List ℚ))
    (m : ModelState) (x y : List (List ℚ)) : ℚ × ModelState :=
  let m1 := m.evalMode
  let out := fwd m1 x
  let m2 := m1.trainMode
  let pred := out.map argmax
  let tgt := y.map argmax
  ((((pred.zip tgt).filter (fun pt => pt.1 = pt.2)).length : ℚ)
      / (pred.length : ℚ), m2)

/-- The model-state effect of train_MLP_DDP's `compute_accuracy` (lines
12-38): `model.eval()` before the batch loop, `model.train()` after it;
the loop's `worker.execute` runs inference-schedule forward passes only,
which (modelled from the spec: an InferenceSchedule emits no backward
steps and allocates no gradient buffers, and the numeric library is
stateless) touch neither parameters nor gradients. -/
def computeAccuracyDDPModelEffect (m : ModelState) : ModelState :=
  m.evalMode.trainMode

/-! ## W = 2, D = 1 gradient-averaging equivalence (spec §8.6) -/

/-- Modelled from the spec: `mse_loss_grad` and the minMLP backward pass
are not under `src/`. Per the spec the loss is a mean over the batch's
rows, so a batch's parameter gradient is the mean of the per-row
gradient contributions `g w row`. -/
def batchGrad {Row : Type} (g : ℚ → Row → ℚ) (w : ℚ) (rows : List Row) : ℚ :=
  (rows.map (g w)).sum / (rows.length : ℚ)

/-- `SGD.step`: `param -= lr * grad`. -/
def sgdStep (lr w g : ℚ) : ℚ := w - lr * g

/-- Modelled from the spec: one data-parallel training step at width 2 —
each replica computes its shard's batch gradient from the common
starting weights, the Worker all-reduces (sums, then divides by the
width 2), and the replica applies the SGD update with the reduced
gradient. `s0` is this replica's shard and `s1` the peer's. -/
def dpStepW2 {Row : Type} (g : ℚ → Row → ℚ) (lr w : ℚ)
    (s0 s1 : List Row) : ℚ :=
  sgdStep lr w ((batchGrad g w s0 + batchGrad g w s1) / 2)

/-- Walk the dataset keeping the rows whose position is congruent to `r`
modulo `S`; `i` is the position of the list head. -/
def shardRowsAux {Row : Type} (S r : ℕ) : ℕ → List Row → List Row
  | _, [] => []
  | i, x :: xs =>
      if i % S = r then x :: shardRowsAux S r (i + 1) xs
      else shardRowsAux S r (i + 1) xs

/-- The rows of rank `r`'s interleaved shard of a dataset, stride `S`:
the data counterpart of `shard` (`x_train[r : len(x_train) : S]`). -/
def shardRows {Row : Type} (S r : ℕ) (data : List Row) : List Row :=
  shardRowsAux S r 0 data

/-! ## Accuracy reporting (train_MLP_DDP.py lines 85-90 and 101-105) -/

/-- Python truthiness of the mid-training report guard `if accuracy:`
(line 87): `None` and `0.0` are falsy, every other float is truthy. -/
def midReportPrinted (a : Option ℚ) : Bool :=
  match a with
  | none => false
  | some x => decide (x ≠ 0)

/-- The final report guard `if accuracy is not None:` (line 102). -/
def finalReportPrinted (a : Option ℚ) : Bool := a.isSome

end ShallowSpeed

namespace ShallowSpeed

theorem stageGroup_eq_image (W D c : ℕ) (hD : 0 < D) (hc : c < D) :
    stageGroup W D c = (Finset.range W).image (fun k => k * D + c) := by
  ext x
  simp only [stageGroup, dpColor, Finset.mem_filter, Finset.mem_range, Finset.mem_image]
  constructor
  · rintro ⟨hx, hmod⟩
    refine ⟨x / D, ?_, ?_⟩
    · exact (Nat.div_lt_iff_lt_mul hD).mpr (by omega)
    · conv_rhs => rw [← Nat.div_add_mod x D, hmod, Nat.mul_comm]
  · rintro ⟨k, hk, rfl⟩
    constructor
    · calc k * D + c < k * D + D := by omega
        _ = (k + 1) * D := by ring
        _ ≤ W * D := Nat.mul_le_mul_right D hk
    · rw [Nat.mul_comm k D, Nat.mul_add_mod]
      exact Nat.mod_eq_of_lt hc

theorem pipeGroup_eq_image (W D q : ℕ) (hD : 0 < D) (hq : q < W) :
    pipeGroup W D q = (Finset.range D).image (fun j => q * D + j) := by
  ext x
  simp only [pipeGroup, ppColor, Finset.mem_filter, Finset.mem_range, Finset.mem_image]
  constructor
  · rintro ⟨hx, rfl⟩
    refine ⟨x % D, Nat.mod_lt _ hD, ?_⟩
    rw [Nat.mul_comm, Nat.div_add_mod x D]
  · rintro ⟨j, hj, rfl⟩
    constructor
    · calc q * D + j < q * D + D := by omega
        _ = (q + 1) * D := by ring
        _ ≤ W * D := Nat.mul_le_mul_right D hq
    · rw [Nat.mul_comm q D, Nat.mul_add_div hD, Nat.div_eq_of_lt hj]
      omega

theorem stageMap_injective (D c : ℕ) (hD : 0 < D) :
    Function.Injective (fun k => k * D + c) := by
  intro a b hab
  simp only at hab
  exact Nat.eq_of_mul_eq_mul_right hD (by omega)

theorem pipeMap_injective (D q : ℕ) :
    Function.Injective (fun j => q * D + j) := by
  intro a b hab
  simp only at hab
  omega

theorem stageGroup_card (W D c : ℕ) (hD : 0 < D) (hc : c < D) :
    (stageGroup W D c).card = W := by
  rw [stageGroup_eq_image W D c hD hc,
    Finset.card_image_of_injective _ (stageMap_injective D c hD),
    Finset.card_range]

theorem pipeGroup_card (W D q : ℕ) (hD : 0 < D) (hq : q < W) :
    (pipeGroup W D q).card = D := by
  rw [pipeGroup_eq_image W D q hD hq,
    Finset.card_image_of_injective _ (pipeMap_injective D q),
    Finset.card_range]

theorem dpRankOf_eq (W D r : ℕ) (hD : 0 < D) (hr : r < W * D) :
    dpRankOf W D r = r / D := by
  have hc : dpColor D r < D := Nat.mod_lt _ hD
  rw [dpRankOf, groupRank, stageGroup_eq_image W D _ hD hc, Finset.filter_image,
    Finset.card_image_of_injective _ (stageMap_injective D _ hD)]
  have hrdm : r = r / D * D + dpColor D r := by
    rw [dpColor, Nat.mul_comm]; exact (Nat.div_add_mod r D).symm
  have hdivW : r / D < W := (Nat.div_lt_iff_lt_mul hD).mpr (by omega)
  have hset : (Finset.range W).filter (fun k => k * D + dpColor D r < r)
      = Finset.range (r / D) := by
    ext k
    simp only [Finset.mem_filter, Finset.mem_range]
    constructor
    · rintro ⟨-, hlt⟩
      by_contra hge
      push_neg at hge
      have : r / D * D + dpColor D r ≤ k * D + dpColor D r :=
        Nat.add_le_add_right (Nat.mul_le_mul_right D hge) _
      omega
    · intro hk
      have hDk : k * D + D ≤ r / D * D := by
        calc k * D + D = (k + 1) * D := by ring
          _ ≤ r / D * D := Nat.mul_le_mul_right D hk
      exact ⟨by omega, by omega⟩
  rw [hset, Finset.card_range]

theorem stageIdOf_eq (W D r : ℕ) (hD : 0 < D) (hr : r < W * D) :
    stageIdOf W D r = r % D := by
  have hq : ppColor D r < W := by
    rw [ppColor]; exact (Nat.div_lt_iff_lt_mul hD).mpr (by omega)
  rw [stageIdOf, groupRank, pipeGroup_eq_image W D _ hD hq, Finset.filter_image,
    Finset.card_image_of_injective _ (pipeMap_injective D _)]
  have hrdm : r = ppColor D r * D + r % D := by
    rw [ppColor, Nat.mul_comm]; exact (Nat.div_add_mod r D).symm
  have hset : (Finset.range D).filter (fun j => ppColor D r * D + j < r)
      = Finset.range (r % D) := by
    ext j
    simp only [Finset.mem_filter, Finset.mem_range]
    have hm : r % D < D := Nat.mod_lt _ hD
    omega
  rw [hset, Finset.card_range]

/-- Claim C1: with data-parallel width `W` and pipeline depth `D` over
`W * D` ranks, the split by color `rank % D` puts rank `r` in a group of
exactly the ranks congruent to `r` mod `D` (size `W`); the split by color
`rank / D` puts `r` with exactly the ranks sharing its quotient (size `D`);
every rank gets the unique coordinate pair
`(dp_rank, stage_id) = (r / D, r % D)`; and the stage-communicator groups
for the `D` colors partition the rank set into `D` disjoint groups of
size `W`. -/
theorem C1_topology_split (W D r : ℕ) (hD : 0 < D) (hr : r < W * D) :
    (∀ x, x ∈ stageGroup W D (dpColor D r) ↔ x < W * D ∧ x % D = r % D) ∧
    (stageGroup W D (dpColor D r)).card = W ∧
    (∀ x, x ∈ pipeGroup W D (ppColor D r) ↔ x < W * D ∧ x / D = r / D) ∧
    (pipeGroup W D (ppColor D r)).card = D ∧
    coords W D r = (r / D, r % D) ∧
    (∀ r₁ r₂, r₁ < W * D → r₂ < W * D → coords W D r₁ = coords W D r₂ → r₁ = r₂) ∧
    (Finset.range D).biUnion (fun c => stageGroup W D c) = Finset.range (W * D) ∧
    (∀ c₁ c₂, c₁ ≠ c₂ → Disjoint (stageGroup W D c₁) (stageGroup W D c₂)) ∧
    (∀ c, c < D → (stageGroup W D c).card = W) := by
  refine ⟨?_, ?_, ?_, ?_, ?_, ?_, ?_, ?_, ?_⟩
  · intro x
    simp [stageGroup, dpColor, Finset.mem_filter, Finset.mem_range]
  · exact stageGroup_card W D _ hD (Nat.mod_lt _ hD)
  · intro x
    simp [pipeGroup, ppColor, Finset.mem_filter, Finset.mem_range]
  · exact pipeGroup_card W D _ hD
      ((Nat.div_lt_iff_lt_mul hD).mpr (by omega))
  · rw [coords, dpRankOf_eq W D r hD hr, stageIdOf_eq W D r hD hr]
  · intro r₁ r₂ h1 h2 hco
    rw [coords, dpRankOf_eq W D r₁ hD h1, stageIdOf_eq W D r₁ hD h1,
      coords, dpRankOf_eq W D r₂ hD h2, stageIdOf_eq W D r₂ hD h2,
      Prod.mk.injEq] at hco
    calc r₁ = D * (r₁ / D) + r₁ % D := (Nat.div_add_mod r₁ D).symm
      _ = D * (r₂ / D) + r₂ % D := by rw [hco.1, hco.2]
      _ = r₂ := Nat.div_add_mod r₂ D
  · ext x
    simp only [Finset.mem_biUnion, Finset.mem_range, stageGroup, dpColor,
      Finset.mem_filter]
    constructor
    · rintro ⟨c, -, hx, -⟩
      exact hx
    · intro hx
      exact ⟨x % D, Nat.mod_lt _ hD, hx, rfl⟩
  · intro c₁ c₂ hne
    rw [Finset.disjoint_left]
    intro a ha hb
    simp only [stageGroup, dpColor, Finset.mem_filter] at ha hb
    exact hne (ha.2 ▸ hb.2)
  · intro c hc
    exact stageGroup_card W D c hD hc

/-- Witness for C1 at `W = 2`, `D = 3`, `r = 4`. -/
theorem C1_topology_split_witness :
    (0 < 3 ∧ 4 < 2 * 3) ∧
    ((∀ x, x ∈ stageGroup 2 3 (dpColor 3 4) ↔ x < 2 * 3 ∧ x % 3 = 4 % 3) ∧
    (stageGroup 2 3 (dpColor 3 4)).card = 2 ∧
    (∀ x, x ∈ pipeGroup 2 3 (ppColor 3 4) ↔ x < 2 * 3 ∧ x / 3 = 4 / 3) ∧
    (pipeGroup 2 3 (ppColor 3 4)).card = 3 ∧
    coords 2 3 4 = (4 / 3, 4 % 3) ∧
    (∀ r₁ r₂, r₁ < 2 * 3 → r₂ < 2 * 3 → coords 2 3 r₁ = coords 2 3 r₂ → r₁ = r₂) ∧
    (Finset.range 3).biUnion (fun c => stageGroup 2 3 c) = Finset.range (2 * 3) ∧
    (∀ c₁ c₂, c₁ ≠ c₂ → Disjoint (stageGroup 2 3 c₁) (stageGroup 2 3 c₂)) ∧
    (∀ c, c < 3 → (stageGroup 2 3 c).card = 2)) :=
  ⟨⟨by decide, by decide⟩, C1_topology_split 2 3 4 (by decide) (by decide)⟩

theorem shard_coe_eq_filter (N S r : ℕ) :
    ((shard N S r : List ℕ) : Multiset ℕ)
      = Multiset.filter (fun i => i % S = r) (Multiset.range N) := by
  rw [← Multiset.coe_range, Multiset.filter_coe]
  rfl

/-- Claim C2 as stated is false: for `N = 5`, `S = 2` the shards are
`[0, 2, 4]` and `[1, 3]`, whose union as a multiset is all five rows of
the dataset, not the first `S * (N / S) = 4` rows. -/
theorem C2_counterexample :
    ¬ ((shard 5 2 0 : Multiset ℕ) + (shard 5 2 1 : Multiset ℕ)
        = ((List.range (2 * (5 / 2)) : List ℕ) : Multiset ℕ)) := by
  decide

/-- Claim C2 amended: the `S` interleaved shards (rows
`rank, rank + S, rank + 2S, ...`) are pairwise disjoint, duplicate no
row, and their union as a multiset of row indices equals ALL `N` rows of
the original dataset — the Python slice `[rank : N : S]` also keeps the
trailing `N mod S` rows, so the union is the whole dataset, not just the
first `S * floor(N / S)` rows. -/
theorem C2_shards_partition (N S : ℕ) (hS : 0 < S) :
    (∀ r₁ r₂, r₁ ≠ r₂ → (shard N S r₁).Disjoint (shard N S r₂)) ∧
    (∀ r, (shard N S r).Nodup) ∧
    (∀ r i, r < S → (i ∈ shard N S r ↔ i < N ∧ ∃ k, i = r + k * S)) ∧
    (∑ r ∈ Finset.range S, (shard N S r : Multiset ℕ)) = Multiset.range N := by
  refine ⟨?_, ?_, ?_, ?_⟩
  · intro r₁ r₂ hne a ha hb
    simp only [shard, List.mem_filter, List.mem_range, decide_eq_true_eq] at ha hb
    exact hne (ha.2 ▸ hb.2)
  · intro r
    exact List.Nodup.filter _ (List.nodup_range N)
  · intro r i hr
    simp only [shard, List.mem_filter, List.mem_range, decide_eq_true_eq]
    constructor
    · rintro ⟨hi, hmod⟩
      refine ⟨hi, i / S, ?_⟩
      have h := Nat.div_add_mod i S
      rw [Nat.mul_comm] at h
      omega
    · rintro ⟨hi, k, rfl⟩
      refine ⟨hi, ?_⟩
      rw [Nat.add_mul_mod_self_right]
      exact Nat.mod_eq_of_lt hr
  · ext a
    rw [Multiset.count_sum']
    have hterm : ∀ r ∈ Finset.range S,
        Multiset.count a ((shard N S r : List ℕ) : Multiset ℕ)
          = if a % S = r then Multiset.count a (Multiset.range N) else 0 := by
      intro r _
      rw [shard_coe_eq_filter, Multiset.count_filter]
    rw [Finset.sum_congr rfl hterm,
      Finset.sum_ite_eq (Finset.range S) (a % S)
        (fun _ => Multiset.count a (Multiset.range N)),
      if_pos (Finset.mem_range.mpr (Nat.mod_lt a hS))]

/-- Witness for the amended C2 at `N = 5`, `S = 2`. -/
theorem C2_shards_partition_witness :
    0 < 2 ∧
    ((∀ r₁ r₂, r₁ ≠ r₂ → (shard 5 2 r₁).Disjoint (shard 5 2 r₂)) ∧
    (∀ r, (shard 5 2 r).Nodup) ∧
    (∀ r i, r < 2 → (i ∈ shard 5 2 r ↔ i < 5 ∧ ∃ k, i = r + k * 2)) ∧
    (∑ r ∈ Finset.range 2, (shard 5 2 r : Multiset ℕ)) = Multiset.range 5) :=
  ⟨by decide, C2_shards_partition 5 2 (by decide)⟩

theorem pyRangeStride_length (L B : ℕ) (hB : 0 < B) :
    (pyRangeStride L B).length = (L + B - 1) / B := by
  simp only [pyRangeStride]
  induction L with
  | zero =>
    simp only [List.range_zero, List.filter_nil, List.length_nil]
    exact (Nat.div_eq_of_lt (by omega)).symm
  | succ n ih =>
    rw [List.range_succ, List.filter_append, List.length_append, ih]
    have hsucc : n + 1 + B - 1 = (n + B - 1) + 1 := by omega
    rw [hsucc, Nat.succ_div]
    have hdvd : (B ∣ n + B - 1 + 1) ↔ n % B = 0 := by
      have he : n + B - 1 + 1 = n + B := by omega
      rw [he, Nat.dvd_add_self_right, Nat.dvd_iff_mod_eq_zero]
    by_cases h : n % B = 0
    · rw [if_pos (hdvd.mpr h)]
      simp [List.filter_cons, h]
    · rw [if_neg (fun hd => h (hdvd.mp hd))]
      simp [List.filter_cons, h]

theorem ceilDiv_eq (L B : ℕ) (hB : 0 < B) :
    (L + B - 1) / B = L / B + (if L % B = 0 then 0 else 1) := by
  have hdm := Nat.div_add_mod L B
  have hmlt : L % B < B := Nat.mod_lt _ hB
  have hB1 : (B - 1) / B = 0 := Nat.div_eq_of_lt (by omega)
  by_cases h : L % B = 0
  · rw [if_pos h]
    have hL : L + B - 1 = B * (L / B) + (B - 1) := by omega
    rw [hL, Nat.mul_add_div hB, hB1]
  · rw [if_neg h]
    have hL : L + B - 1 = B * (L / B + 1) + (L % B - 1) := by
      have hx : B * (L / B + 1) = B * (L / B) + B := by ring
      omega
    have hm1 : (L % B - 1) / B = 0 := Nat.div_eq_of_lt (by omega)
    rw [hL, Nat.mul_add_div hB, hm1]

/-- Claim C3 as stated is false for the NN_From_Scratch training loop: a
shard of `L = 5` rows with per-replica batch size `B = 2` is consumed in
three loop iterations with batch sizes 2, 2 and 1 — not in
`floor(5/2) = 2` iterations of exactly 2 rows — and the trailing single
row is fed to a full forward/backward/step parameter update. -/
theorem C3_counterexample :
    ¬ ((nnEpochBatches 5 2).length = 5 / 2 ∧
        ∀ jb ∈ nnEpochBatches 5 2, jb.2 = 2) := by
  decide

/-- Claim C3 amended: the claim holds for the train_MLP_DDP loop, which
runs `get_num_batches() = floor(L/B)` iterations of exactly `B` rows each
(trailing remainder dropped); but the NN_From_Scratch loop
`for j in range(0, L, B)` with `min()`-clamped slicing runs
`ceil(L/B)` iterations: full `B`-row batches while `j + B ≤ L`, and when
`B` does not divide `L` one final partial batch of `L mod B` rows which
IS processed as a smaller batch and used for a parameter update. -/
theorem C3_batching (L B : ℕ) (hB : 0 < B) :
    ((nnEpochBatches L B).length = (L + B - 1) / B) ∧
    (∀ jb ∈ nnEpochBatches L B, jb.1 + B ≤ L → jb.2 = B) ∧
    (∀ jb ∈ nnEpochBatches L B, L < jb.1 + B → jb.2 = L % B ∧ jb.2 ≠ 0) ∧
    (L % B ≠ 0 → (L / B * B, L % B) ∈ nnEpochBatches L B) ∧
    ((nnEpochBatches L B).length = L / B ↔ L % B = 0) ∧
    (get_num_batches L B = L / B) ∧
    ((ddpEpochBatches L B).length = L / B) ∧
    (∀ jb ∈ ddpEpochBatches L B, jb.2 = B) := by
  have hlen : (nnEpochBatches L B).length = (L + B - 1) / B := by
    rw [nnEpochBatches, List.length_map]
    exact pyRangeStride_length L B hB
  have hmem : ∀ jb ∈ nnEpochBatches L B,
      jb.1 % B = 0 ∧ jb.1 < L ∧ jb.2 = min L (jb.1 + B) - jb.1 := by
    intro jb hjb
    rw [nnEpochBatches, List.mem_map] at hjb
    obtain ⟨j, hj, rfl⟩ := hjb
    simp only [pyRangeStride, List.mem_filter, List.mem_range,
      decide_eq_true_eq] at hj
    exact ⟨hj.2, hj.1, rfl⟩
  refine ⟨hlen, ?_, ?_, ?_, ?_, rfl, ?_, ?_⟩
  · intro jb hjb hfull
    have h := hmem jb hjb
    omega
  · intro jb hjb hpartial
    obtain ⟨hj0, hjL, hsz⟩ := hmem jb hjb
    have hjq : jb.1 / B * B = jb.1 := by
      have := Nat.div_add_mod jb.1 B
      have : jb.1 / B * B = B * (jb.1 / B) := Nat.mul_comm _ _
      omega
    have hdiv : L / B = jb.1 / B := by
      apply Nat.div_eq_of_lt_le
      · omega
      · have : (jb.1 / B + 1) * B = jb.1 / B * B + B := by ring
        omega
    have hLm := Nat.div_add_mod L B
    have hBL : B * (L / B) = jb.1 := by
      rw [hdiv, Nat.mul_comm]
      exact hjq
    omega
  · intro hrem
    have hdm := Nat.div_add_mod L B
    have hmlt : L % B < B := Nat.mod_lt _ hB
    have hcomm : L / B * B = B * (L / B) := Nat.mul_comm _ _
    rw [nnEpochBatches, List.mem_map]
    refine ⟨L / B * B, ?_, ?_⟩
    · simp only [pyRangeStride, List.mem_filter, List.mem_range,
        decide_eq_true_eq]
      exact ⟨by omega, Nat.mul_mod_left _ _⟩
    · have : min L (L / B * B + B) = L := by omega
      rw [this]
      have : L - L / B * B = L % B := by omega
      rw [this]
  · rw [hlen, ceilDiv_eq L B hB]
    have hdm := Nat.div_add_mod L B
    by_cases h : L % B = 0 <;> simp [h]
  · rw [ddpEpochBatches, List.length_map, List.length_range, get_num_batches]
  · intro jb hjb
    rw [ddpEpochBatches, List.mem_map] at hjb
    obtain ⟨b, -, rfl⟩ := hjb
    rfl

/-- Witness for the amended C3 at `L = 5`, `B = 2`. -/
theorem C3_batching_witness :
    0 < 2 ∧
    (((nnEpochBatches 5 2).length = (5 + 2 - 1) / 2) ∧
    (∀ jb ∈ nnEpochBatches 5 2, jb.1 + 2 ≤ 5 → jb.2 = 2) ∧
    (∀ jb ∈ nnEpochBatches 5 2, 5 < jb.1 + 2 → jb.2 = 5 % 2 ∧ jb.2 ≠ 0) ∧
    (5 % 2 ≠ 0 → (5 / 2 * 2, 5 % 2) ∈ nnEpochBatches 5 2) ∧
    ((nnEpochBatches 5 2).length = 5 / 2 ↔ 5 % 2 = 0) ∧
    (get_num_batches 5 2 = 5 / 2) ∧
    ((ddpEpochBatches 5 2).length = 5 / 2) ∧
    (∀ jb ∈ ddpEpochBatches 5 2, jb.2 = 2)) :=
  ⟨by decide, C3_batching 5 2 (by decide)⟩

/-- Claim C4 as stated is false: when NN_From_Scratch.py is launched with
the dataset directory absent, every rank executes `comm.Barrier()`
(line 66) before the batch-divisibility assert (line 80), and that driver
has no topology-product check at all, so the configuration checks do not
all precede inter-process communication in both drivers. -/
theorem C4_counterexample :
    checksPrecedeComm (nnStartupTrace true) = false ∧
    StartupEvent.checkBatchDivisible ∉ beforeFirstComm (nnStartupTrace true) ∧
    StartupEvent.checkTopoProduct ∉ nnStartupTrace true := by
  decide

/-- Claim C4 amended: in train_MLP_DDP.py both configuration checks (the
tile-factor product assert and the global-batch divisibility assert) run
before any inter-process communication (the first communication is the
communicator `Split`); in NN_From_Scratch.py there is no topology-product
check, and the divisibility assert precedes all communication exactly
when the dataset directory already exists at launch — otherwise a
`Barrier` precedes it. -/
theorem C4_failfast :
    checksPrecedeComm ddpStartupTrace = true ∧
    StartupEvent.checkTopoProduct ∈ beforeFirstComm ddpStartupTrace ∧
    StartupEvent.checkBatchDivisible ∈ beforeFirstComm ddpStartupTrace ∧
    StartupEvent.checkBatchDivisible ∈ beforeFirstComm (nnStartupTrace false) ∧
    StartupEvent.checkBatchDivisible ∉ beforeFirstComm (nnStartupTrace true) ∧
    (∀ m, StartupEvent.checkTopoProduct ∉ nnStartupTrace m) ∧
    nnStartupTrace true = StartupEvent.commBarrier :: nnStartupTrace false := by
  decide

/-- Claim C5: when all data-parallel replicas start from identical
parameters, then after any number of synchronized training iterations
(each all-reducing the local gradients before the SGD step) every
replica holds identical parameters, so the post-training diagnostic
`assert_sync(comm, get_model_hash(model))` succeeds on every rank. -/
theorem C5_replica_sync (R : ℕ) (lr : ℚ) (grads : ℕ → Fin R → ℚ → ℚ)
    (T : ℕ) (p₀ : Fin R → ℚ) (h₀ : ∀ i j, p₀ i = p₀ j) :
    (∀ i j, trainRun R lr grads T p₀ i = trainRun R lr grads T p₀ j) ∧
    ∀ (hash : ℚ → ℕ),
      assertSyncOK (fun i => hash (trainRun R lr grads T p₀ i)) := by
  have key : ∀ (t : ℕ) (p : Fin R → ℚ), (∀ i j, p i = p j) →
      ∀ i j, trainRun R lr grads t p i = trainRun R lr grads t p j := by
    intro t
    induction t with
    | zero => intro p hp i j; exact hp i j
    | succ t ih =>
      intro p hp i j
      simp only [trainRun]
      apply ih
      intro a b
      simp only [syncStep]
      rw [hp a b]
  exact ⟨key T p₀ h₀, fun hash i j => congrArg hash (key T p₀ h₀ i j)⟩

/-- Witness for C5: two replicas, learning rate 1, local gradient equal
to the parameter value, one iteration, both replicas starting at 1. -/
theorem C5_replica_sync_witness :
    (∀ i j : Fin 2, (fun _ : Fin 2 => (1 : ℚ)) i = (fun _ : Fin 2 => (1 : ℚ)) j) ∧
    ((∀ i j, trainRun 2 1 (fun _ _ x => x) 1 (fun _ => (1 : ℚ)) i
        = trainRun 2 1 (fun _ _ x => x) 1 (fun _ => (1 : ℚ)) j) ∧
      ∀ (hash : ℚ → ℕ), assertSyncOK
        (fun i => hash (trainRun 2 1 (fun _ _ x => x) 1 (fun _ => (1 : ℚ)) i))) :=
  ⟨fun _ _ => rfl,
    C5_replica_sync 2 1 (fun _ _ x => x) 1 (fun _ => 1) (fun _ _ => rfl)⟩

theorem epochTrace_succ (m : ℕ) :
    epochTrace (m + 1) = epochTrace m ++ batchBody.map (fun op => (m, op)) := by
  simp [epochTrace, List.range_succ, List.flatMap_append]

theorem epochTrace_fst_lt (m : ℕ) : ∀ x ∈ epochTrace m, x.1 < m := by
  intro x hx
  simp only [epochTrace, List.mem_flatMap, List.mem_map, List.mem_range] at hx
  obtain ⟨b, hb, op, -, rfl⟩ := hx
  exact hb

theorem epochTrace_block (b : ℕ) : ∀ n, b < n →
    ∃ pre post,
      epochTrace n = pre ++ batchBody.map (fun op => (b, op)) ++ post ∧
      (∀ x ∈ pre, x.1 < b) ∧ (∀ x ∈ post, b < x.1) := by
  intro n
  induction n with
  | zero => omega
  | succ m ih =>
    intro hb
    by_cases hbm : b = m
    · subst hbm
      refine ⟨epochTrace b, [], ?_, epochTrace_fst_lt b, by simp⟩
      rw [epochTrace_succ, List.append_nil]
    · obtain ⟨pre, post, heq, hpre, hpost⟩ := ih (by omega)
      refine ⟨pre, post ++ batchBody.map (fun op => (m, op)), ?_, hpre, ?_⟩
      · rw [epochTrace_succ, heq]
        simp [List.append_assoc]
      · intro x hx
        rcases List.mem_append.mp hx with h | h
        · exact hpost x h
        · simp only [List.mem_map] at h
          obtain ⟨op, -, rfl⟩ := h
          omega

/-- Claim C6: in every training-batch iteration of the NN_From_Scratch
loop the operations occur in the fixed program order forward, loss,
loss-gradient, zero_grad, backward, optimizer step — the epoch trace
decomposes around batch `b`'s contiguous block, which lists exactly those
operations in exactly that order, so the gradient accumulator is zeroed
before the batch's backward pass and the optimizer step (which follows
the all-reducing backward pass) is never invoked before it. -/
theorem C6_batch_order (n b : ℕ) (hb : b < n) :
    batchBody = [TrainOp.forward, TrainOp.loss, TrainOp.lossGrad,
      TrainOp.zeroGrad, TrainOp.backward, TrainOp.step] ∧
    ∃ pre post,
      epochTrace n = pre ++ batchBody.map (fun op => (b, op)) ++ post ∧
      (∀ x ∈ pre, x.1 < b) ∧ (∀ x ∈ post, b < x.1) :=
  ⟨rfl, epochTrace_block b n hb⟩

/-- Witness for C6 at two batches, batch index 1. -/
theorem C6_batch_order_witness :
    1 < 2 ∧
    (batchBody = [TrainOp.forward, TrainOp.loss, TrainOp.lossGrad,
      TrainOp.zeroGrad, TrainOp.backward, TrainOp.step] ∧
    ∃ pre post,
      epochTrace 2 = pre ++ batchBody.map (fun op => (1, op)) ++ post ∧
      (∀ x ∈ pre, x.1 < 1) ∧ (∀ x ∈ post, 1 < x.1)) :=
  ⟨by decide, C6_batch_order 2 1 (by decide)⟩

theorem accuracyLoop_nonterminal
    (exec : (ℕ → List (List ℚ)) → ℕ → (ℕ → List (List ℚ)))
    (targets : ℕ → List (List ℚ)) (sid depth : ℕ)
    (hne : ¬ sid = depth - 1) :
    ∀ (l : List ℕ) (bufs : ℕ → List (List ℚ)) (c : ℚ) (t : ℕ)
      (reads : List ℕ),
      (accuracyLoop exec targets sid depth l (bufs, c, t, reads)).2
        = (c, t, reads) := by
  intro l
  induction l with
  | nil => intro bufs c t reads; rfl
  | cons batchId rest ih =>
    intro bufs c t reads
    simp only [accuracyLoop, if_neg hne]
    exact ih _ c t reads

theorem accuracyLoop_reads
    (exec : (ℕ → List (List ℚ)) → ℕ → (ℕ → List (List ℚ)))
    (targets : ℕ → List (List ℚ)) (sid depth : ℕ) :
    ∀ (l : List ℕ) (bufs : ℕ → List (List ℚ)) (c : ℚ) (t : ℕ)
      (reads : List ℕ),
      ∀ s ∈ (accuracyLoop exec targets sid depth l
          (bufs, c, t, reads)).2.2.2, s ∈ reads ∨ s = 1 := by
  intro l
  induction l with
  | nil => intro bufs c t reads s hs; exact Or.inl hs
  | cons batchId rest ih =>
    intro bufs c t reads s hs
    by_cases h : sid = depth - 1
    · simp only [accuracyLoop, if_pos h] at hs
      rcases ih _ _ _ _ s hs with hmem | h1
      · rcases List.mem_append.mp hmem with hr | hone
        · exact Or.inl hr
        · simp only [List.mem_singleton] at hone
          exact Or.inr hone
      · exact Or.inr h1
    · simp only [accuracyLoop, if_neg h] at hs
      exact ih _ _ _ _ s hs

/-- Claim C7: in the pipelined driver, `compute_accuracy` returns a value
(`correct / total`) exactly on the worker whose `stage_id` equals
`pipeline_depth - 1`; on every non-terminal stage it returns `None` and
never reads an output buffer; and the only buffer slot it ever reads is
slot 1, the final-layer output. -/
theorem C7_terminal_stage_only
    (exec : (ℕ → List (List ℚ)) → ℕ → (ℕ → List (List ℚ)))
    (targets : ℕ → List (List ℚ)) (w : PipelineWorker) (nb : ℕ) :
    ((computeAccuracyDDP exec targets w nb).1.isSome
        ↔ w.stageId = w.pipelineDepth - 1) ∧
    (¬ w.stageId = w.pipelineDepth - 1 →
        computeAccuracyDDP exec targets w nb = (none, [])) ∧
    (∀ s ∈ (computeAccuracyDDP exec targets w nb).2, s = 1) := by
  refine ⟨?_, ?_, ?_⟩
  · by_cases h : w.stageId = w.pipelineDepth - 1 <;>
      simp [computeAccuracyDDP, h]
  · intro h
    have hrd := accuracyLoop_nonterminal exec targets w.stageId
      w.pipelineDepth h (List.range nb) w.buffers 0 0 []
    simp only [computeAccuracyDDP, if_neg h]
    rw [Prod.mk.injEq]
    exact ⟨rfl, congrArg (fun q => q.2.2) hrd⟩
  · intro s hs
    have := accuracyLoop_reads exec targets w.stageId w.pipelineDepth
      (List.range nb) w.buffers 0 0 [] s hs
    simpa using this

/-- Witness for C7: a two-stage pipeline worker sitting on the
non-terminal stage 0, with buffer-preserving execution over one batch. -/
theorem C7_terminal_stage_only_witness :
    ((computeAccuracyDDP (fun b _ => b) (fun _ => [])
        ⟨0, 2, fun _ => []⟩ 1).1.isSome ↔ (0 : ℕ) = 2 - 1) ∧
    (¬ (0 : ℕ) = 2 - 1 →
        computeAccuracyDDP (fun b _ => b) (fun _ => [])
          ⟨0, 2, fun _ => []⟩ 1 = (none, [])) ∧
    (∀ s ∈ (computeAccuracyDDP (fun b _ => b) (fun _ => [])
        ⟨0, 2, fun _ => []⟩ 1).2, s = 1) :=
  C7_terminal_stage_only (fun b _ => b) (fun _ => []) ⟨0, 2, fun _ => []⟩ 1

/-- Claim C8: with W = 2, D = 1, two replicas that start from the same
weights, each trained for one step on its interleaved shard of the
4-row dataset `[r0, r1, r2, r3]` (per-replica batch size 2) with the
local gradients averaged across the pair, end with exactly the post-step
weights of each other and of a single replica trained for one step on
the full 4-row batch. -/
theorem C8_dp_matches_fullbatch {Row : Type} (g : ℚ → Row → ℚ) (lr w : ℚ)
    (r0 r1 r2 r3 : Row) :
    dpStepW2 g lr w (shardRows 2 0 [r0, r1, r2, r3])
        (shardRows 2 1 [r0, r1, r2, r3])
      = sgdStep lr w (batchGrad g w [r0, r1, r2, r3]) ∧
    dpStepW2 g lr w (shardRows 2 0 [r0, r1, r2, r3])
        (shardRows 2 1 [r0, r1, r2, r3])
      = dpStepW2 g lr w (shardRows 2 1 [r0, r1, r2, r3])
        (shardRows 2 0 [r0, r1, r2, r3]) := by
  have h0 : shardRows 2 0 [r0, r1, r2, r3] = [r0, r2] := by
    simp [shardRows, shardRowsAux]
  have h1 : shardRows 2 1 [r0, r1, r2, r3] = [r1, r3] := by
    simp [shardRows, shardRowsAux]
  constructor
  · rw [h0, h1]
    simp only [dpStepW2, sgdStep, batchGrad, List.map_cons, List.map_nil,
      List.sum_cons, List.sum_nil, List.length_cons, List.length_nil]
    push_cast
    ring
  · rw [h0, h1]
    simp only [dpStepW2, sgdStep, batchGrad]
    ring

/-- Witness for C8 at a concrete gradient function and concrete rows:
`g w r = w * r`, `lr = 1`, `w = 2`, rows `1, 2, 3, 4`. -/
theorem C8_dp_matches_fullbatch_witness :
    dpStepW2 (fun w r => w * r) 1 2 (shardRows 2 0 [(1 : ℚ), 2, 3, 4])
        (shardRows 2 1 [(1 : ℚ), 2, 3, 4])
      = sgdStep 1 2 (batchGrad (fun w r => w * r) 2 [(1 : ℚ), 2, 3, 4]) ∧
    dpStepW2 (fun w r => w * r) 1 2 (shardRows 2 0 [(1 : ℚ), 2, 3, 4])
        (shardRows 2 1 [(1 : ℚ), 2, 3, 4])
      = dpStepW2 (fun w r => w * r) 1 2 (shardRows 2 1 [(1 : ℚ), 2, 3, 4])
        (shardRows 2 0 [(1 : ℚ), 2, 3, 4]) :=
  C8_dp_matches_fullbatch (fun w r => w * r) 1 2 1 2 3 4

/-- Claim C9: `compute_accuracy` leaves the model in training mode on
return and modifies neither parameters nor gradients — in both drivers
the model state after the call is the input state with only the training
flag set. -/
theorem C9_accuracy_frame
    (fwd : ModelState → List (List ℚ) → List (List ℚ))
    (m : ModelState) (x y : List (List ℚ)) :
    (computeAccuracyNN fwd m x y).2 = { m with training := true } ∧
    (computeAccuracyNN fwd m x y).2.training = true ∧
    (computeAccuracyNN fwd m x y).2.params = m.params ∧
    (computeAccuracyNN fwd m x y).2.grads = m.grads ∧
    computeAccuracyDDPModelEffect m = { m with training := true } ∧
    (computeAccuracyDDPModelEffect m).params = m.params ∧
    (computeAccuracyDDPModelEffect m).grads = m.grads := by
  simp [computeAccuracyNN, computeAccuracyDDPModelEffect,
    ModelState.evalMode, ModelState.trainMode]

/-- Witness for C9 at a concrete model state and forward pass. -/
theorem C9_accuracy_frame_witness :
    (computeAccuracyNN (fun _ x => x) ⟨false, [[1]], [[0]]⟩ [[2]] [[3]]).2
        = { training := true, params := [[1]], grads := [[0]] } ∧
    (computeAccuracyNN (fun _ x => x) ⟨false, [[1]], [[0]]⟩ [[2]] [[3]]).2.training
        = true ∧
    (computeAccuracyNN (fun _ x => x) ⟨false, [[1]], [[0]]⟩ [[2]] [[3]]).2.params
        = [[1]] ∧
    (computeAccuracyNN (fun _ x => x) ⟨false, [[1]], [[0]]⟩ [[2]] [[3]]).2.grads
        = [[0]] ∧
    computeAccuracyDDPModelEffect ⟨false, [[1]], [[0]]⟩
        = { training := true, params := [[1]], grads := [[0]] } ∧
    (computeAccuracyDDPModelEffect ⟨false, [[1]], [[0]]⟩).params = [[1]] ∧
    (computeAccuracyDDPModelEffect ⟨false, [[1]], [[0]]⟩).grads = [[0]] :=
  C9_accuracy_frame (fun _ x => x) ⟨false, [[1]], [[0]]⟩ [[2]] [[3]]

/-- Claim C10: the mid-training epoch report (line 87, `if accuracy:`)
prints exactly when `compute_accuracy` returned a truthy value, so a
computed accuracy of exactly 0.0 on the terminal stage is suppressed
there, while the final report (line 102, `if accuracy is not None:`)
prints for every non-`None` value including 0.0; on non-terminal stages
(where the return value is `None`) neither report prints. -/
theorem C10_report_guards :
    (∀ a : Option ℚ, midReportPrinted a = true ↔ ∃ x, a = some x ∧ x ≠ 0) ∧
    (∀ a : Option ℚ, finalReportPrinted a = true ↔ a ≠ none) ∧
    midReportPrinted (some 0) = false ∧
    finalReportPrinted (some 0) = true ∧
    midReportPrinted none = false ∧
    finalReportPrinted none = false ∧
    (∀ exec targets w nb, ¬ w.stageId = w.pipelineDepth - 1 →
      midReportPrinted (computeAccuracyDDP exec targets w nb).1 = false ∧
      finalReportPrinted (computeAccuracyDDP exec targets w nb).1 = false) := by
  refine ⟨?_, ?_, by decide, by decide, rfl, rfl, ?_⟩
  · intro a
    cases a with
    | none => simp [midReportPrinted]
    | some x => simp [midReportPrinted]
  · intro a
    cases a with
    | none => simp [finalReportPrinted]
    | some x => simp [finalReportPrinted]
  · intro exec targets w nb h
    simp [computeAccuracyDDP, if_neg h, midReportPrinted, finalReportPrinted]

end ShallowSpeed
